import Mathlib

/-!
Shallow embedding of the `.eml` renaming tools of this repository
(`src/eml-rename.py` and `src/rename-eml.py`).

Strings are modelled through their character lists.  The filesystem (a single
directory, the only namespace the scripts touch via `Path.with_name`) is
modelled as a partial map from file names to byte contents.  External stdlib
capabilities that the scripts merely call — `email.message_from_binary_file`,
`email.utils.parsedate_to_datetime` combined with `strftime`, `hashlib.sha256`
hex digests, and RFC 2047 header decoding — are parameters of an `Env`
record; the renaming logic itself is translated line by line below.
-/

/-- Characters removed by `_SUBJECT_RE = re.compile(r'[\\/:*?"<>|\r\n]+')`
in both scripts: the filesystem-unsafe characters plus CR and LF. -/
def isBanned (c : Char) : Bool :=
  c == '\\' || c == '/' || c == ':' || c == '*' || c == '?' || c == '"' ||
    c == '<' || c == '>' || c == '|' || c == '\r' || c == '\n'

/-- Whitespace in the sense of Python: the set matched by `\s` in `re` (str
mode) and stripped by `str.strip()` / `str.rstrip()`. -/
def isPySpace (c : Char) : Bool :=
  c == ' ' || c == '\t' || c == '\n' || c == '\r' || c == '\x0b' || c == '\x0c' ||
    c == '\x1c' || c == '\x1d' || c == '\x1e' || c == '\x1f' ||
    c == '\u0085' || c == '\u00a0' || c == '\u1680' ||
    c == '\u2000' || c == '\u2001' || c == '\u2002' || c == '\u2003' || c == '\u2004' ||
    c == '\u2005' || c == '\u2006' || c == '\u2007' || c == '\u2008' || c == '\u2009' ||
    c == '\u200a' || c == '\u2028' || c == '\u2029' || c == '\u202f' || c == '\u205f' ||
    c == '\u3000'

/-- Step 1 of `_safe_subject`: `_SUBJECT_RE.sub(" ", subject)` — every maximal
run of banned characters is replaced by a single space. -/
def subBanned : List Char → List Char
  | [] => []
  | [c] => if isBanned c then [' '] else [c]
  | a :: b :: rest =>
    if isBanned a then
      if isBanned b then subBanned (b :: rest)
      else ' ' :: subBanned (b :: rest)
    else a :: subBanned (b :: rest)

/-- Right strip: remove the trailing run of Python whitespace
(`str.rstrip()`, also the trailing-strip half of `str.strip()`). -/
def rstripL : List Char → List Char
  | [] => []
  | c :: cs =>
    match rstripL cs with
    | [] => if isPySpace c then [] else [c]
    | d :: ds => c :: d :: ds

/-- Python `str.strip()`: remove the leading and the trailing whitespace run. -/
def stripL (l : List Char) : List Char :=
  rstripL (l.dropWhile isPySpace)

/-- Step 2 of `_safe_subject`: `re.sub(r"\s{2,}", " ", cleaned)` — every run
of two or more whitespace characters becomes one space; a single whitespace
character is kept as it is.  The `fuel` argument makes the recursion
structural; it is called with the length of the list, which strictly bounds
the number of steps. -/
def collapseGo : Nat → List Char → List Char
  | _, [] => []
  | _, [c] => [c]
  | 0, l => l
  | fuel + 1, a :: b :: rest =>
    if isPySpace a && isPySpace b then collapseGo fuel (' ' :: rest)
    else a :: collapseGo fuel (b :: rest)

/-- The whitespace-collapsing substitution of `_safe_subject`. -/
def collapseWS (l : List Char) : List Char :=
  collapseGo l.length l

/-- The fallback token `"untitled"` of `_safe_subject`. -/
def untitledL : List Char := ['u', 'n', 't', 'i', 't', 'l', 'e', 'd']

/-- The body of `_safe_subject(subject, max_len)`: substitute banned runs,
strip, collapse whitespace, truncate to `max_len` right-stripping the cut,
and fall back to `"untitled"` when the result is empty. -/
def safeSubjectL (s : List Char) (maxLen : Nat) : List Char :=
  let cleaned := collapseWS (stripL (subBanned s))
  let r := if maxLen < cleaned.length then rstripL (cleaned.take maxLen) else cleaned
  if r.isEmpty then untitledL else r

/-- `_safe_subject` on `String`, default `max_len = 120` as in the source. -/
def safeSubject (s : String) (maxLen : Nat := 120) : String :=
  ⟨safeSubjectL s.data maxLen⟩

/-- Byte content of a file (the scripts read files in binary mode). -/
abbrev Content := List Nat

/-- A parsed email message: the ordered header block, name/value pairs with
repeated names preserved (`email.message.Message`). -/
structure Message where
  headers : List (String × String)
deriving DecidableEq

/-- ASCII lower casing of a character, for case-insensitive header lookup. -/
def lowerChar (c : Char) : Char :=
  if 'A' ≤ c ∧ c ≤ 'Z' then Char.ofNat (c.toNat + 32) else c

/-- ASCII lower casing of a string. -/
def lowerStr (s : String) : String :=
  ⟨s.data.map lowerChar⟩

/-- `Message.get(name)`: the first header value whose name matches
case-insensitively, `None` when there is none. -/
def Message.get (m : Message) (name : String) : Option String :=
  (m.headers.find? (fun p => lowerStr p.1 == lowerStr name)).map Prod.snd

/-- A parsed date, represented by its `strftime('%Y-%m-%d %H%M%S')`
rendering, the only way the scripts consume it. -/
structure DateTime where
  fmt : String
deriving DecidableEq

/-- External capabilities the renamer consumes: message parsing from bytes,
RFC 5322 date parsing (composed with the strftime rendering), the SHA-256 hex
digest of full file content, and RFC 2047 header decoding (`none` models a
decode failure, which the code catches). -/
structure Env where
  readMsg : Content → Message
  parseDate : String → Option DateTime
  sha256hex : Content → String
  decodeHdr : String → Option String

/-- Take the first `n` characters of a string (Python slicing `s[:n]`). -/
def strTake (s : String) (n : Nat) : String :=
  ⟨s.data.take n⟩

/-- `_extract_datetime(msg, mode)`: reads `msg.get("Date")` and parses it;
any failure (missing header or parse error) yields `None`.  The `mode`
argument is accepted but never consulted, exactly as in both scripts. -/
def extractDatetime (env : Env) (msg : Message) (mode : String) : Option DateTime :=
  match msg.get "Date" with
  | none => none
  | some v => env.parseDate v

/-- `_get_subject(msg)`: the decoded `Subject` header, the raw value on
decode failure, `""` when the header is missing. -/
def getSubject (env : Env) (msg : Message) : String :=
  let raw := (msg.get "Subject").getD ""
  (env.decodeHdr raw).getD raw

/-- `_short_hash(path, length=8)`: first 8 hex characters of the SHA-256
digest of the file content. -/
def shortHash (env : Env) (c : Content) : String :=
  strTake (env.sha256hex c) 8

/-- `Path.stem`/`Path.suffix` helper: index of the last dot of a name. -/
def lastDotIdx (l : List Char) : Option Nat :=
  match l.reverse.findIdx? (fun c => c == '.') with
  | none => none
  | some k => some (l.length - 1 - k)

/-- `Path.suffix`: the extension of the name, empty when the only dot is
leading or trailing. -/
def pathSuffix (name : String) : String :=
  match lastDotIdx name.data with
  | some i => if 0 < i && i < name.data.length - 1 then ⟨name.data.drop i⟩ else ""
  | none => ""

/-- `Path.stem`: the name without its `pathSuffix`. -/
def pathStem (name : String) : String :=
  match lastDotIdx name.data with
  | some i => if 0 < i && i < name.data.length - 1 then ⟨name.data.take i⟩ else name
  | none => name

/-- The candidate name probed by `_unique_path`: `f"{stem} ({i}){suffix}"`. -/
def numCand (stem suf : String) (i : Nat) : String :=
  stem ++ " (" ++ Nat.repr i ++ ")" ++ suf

/-- The probe loop of `_unique_path`: `for i in range(1, 10000)` — try
`" (i)"` suffixes while the candidate exists; when the range is exhausted the
code raises `FileExistsError`, modelled by `Except.error`. -/
def uniquePathGo (ex : String → Bool) (stem suf : String) : Nat → Nat → Except Unit String
  | 0, _ => .error ()
  | fuel + 1, i =>
    if ex (numCand stem suf i) then uniquePathGo ex stem suf fuel (i + 1)
    else .ok (numCand stem suf i)

/-- `_unique_path(base)`: return `base` when free, otherwise probe the 9999
numeric suffixes; raising `FileExistsError` is `Except.error`. -/
def uniquePath (ex : String → Bool) (base : String) : Except Unit String :=
  if ex base then uniquePathGo ex (pathStem base) (pathSuffix base) 9999 1
  else .ok base

/-- The directory the run works in: a map from file names to contents.
`Path.exists()` is `Option.isSome`, `os.replace` is `fsMove`. -/
abbrev FS := String → Option Content

/-- `os.replace(src, target)`: the entry moves from `src` to `target`,
silently replacing whatever was at `target` (a no-op when both coincide). -/
def fsMove (fs : FS) (src target : String) : FS :=
  fun n => if n == target then fs src else if n == src then none else fs n

/-- Per-file result of `_rename_file` in `eml-rename.py`, one constructor per
exit path of the function (its prints): unreadable input, missing date,
duplicate skipped, dry-run report, performed rename. -/
inductive Outcome where
  | errorRead
  | skippedNoDate
  | skippedExists (target : String)
  | dryRunPlan (src target : String)
  | renamed (src target : String)
deriving DecidableEq

/-- The target name `_rename_file` builds before duplicate handling:
`f"{dt.strftime('%Y-%m-%d %H%M%S')} {subject}"`, plus `"_" + short hash`
when `uniq == "hash"`, plus the `".eml"` extension. -/
def targetName (env : Env) (content : Content) (dt : DateTime) (uniq : String) : String :=
  (dt.fmt ++ " " ++ safeSubject (getSubject env (env.readMsg content)) ++
    (if uniq == "hash" then "_" ++ shortHash env content else "")) ++ ".eml"

/-- The tail of `_rename_file` once the target is fixed: report only under
`dry_run`, otherwise `os.replace` the file onto the target. -/
def applyRename (fs : FS) (src target : String) (dryRun : Bool) :
    Except Unit (Outcome × FS) :=
  if dryRun then .ok (.dryRunPlan src target, fs)
  else .ok (.renamed src target, fsMove fs src target)

/-- `_rename_file(file_path, mode, uniq, on_dup, dry_run, verbose)` of
`eml-rename.py`: read the message (unreadable file → error outcome), extract
the date (absent → skip outcome), build the target name, then duplicate
handling — `skip` returns, `overwrite` proceeds onto the existing target, any
other value (the `suffix` branch) probes `_unique_path`, whose
`FileExistsError` propagates out of the function (`Except.error`). -/
def renameFile (env : Env) (fs : FS) (src mode uniq onDup : String)
    (dryRun verbose : Bool) : Except Unit (Outcome × FS) :=
  match fs src with
  | none => .ok (.errorRead, fs)
  | some content =>
    match extractDatetime env (env.readMsg content) mode with
    | none => .ok (.skippedNoDate, fs)
    | some dt =>
      if (fs (targetName env content dt uniq)).isSome then
        if onDup == "skip" then .ok (.skippedExists (targetName env content dt uniq), fs)
        else if onDup == "overwrite" then
          applyRename fs src (targetName env content dt uniq) dryRun
        else
          match uniquePath (fun p => (fs p).isSome) (targetName env content dt uniq) with
          | .error e => .error e
          | .ok t => applyRename fs src t dryRun
      else applyRename fs src (targetName env content dt uniq) dryRun

/-- The file loop of `main`: `for f in files: _rename_file(...)`.  The loop
body is not guarded, so an exception escaping `_rename_file` aborts the whole
run: the third component records whether the batch aborted, and the outcome
list then stops at the failing file. -/
def processAll (env : Env) (mode uniq onDup : String) (dryRun verbose : Bool) :
    List String → FS → List Outcome × FS × Bool
  | [], fs => ([], fs, false)
  | n :: rest, fs =>
    match renameFile env fs n mode uniq onDup dryRun verbose with
    | .error _ => ([], fs, true)
    | .ok (o, fs') =>
      let r := processAll env mode uniq onDup dryRun verbose rest fs'
      (o :: r.1, r.2.1, r.2.2)

/-- Outcome component of a `_rename_file` result, `none` when it raised. -/
def outcomeOf (x : Except Unit (Outcome × FS)) : Option Outcome :=
  x.toOption.map Prod.fst

/-- No character of the list is removed by the sanitizer's character class. -/
def noBanned (l : List Char) : Bool := l.all (fun c => !isBanned c)

/-- No two adjacent characters of the list are both Python whitespace. -/
def noAdjWS : List Char → Bool
  | [] => true
  | [_] => true
  | a :: b :: rest => !(isPySpace a && isPySpace b) && noAdjWS (b :: rest)

/-- The first character, when present, is not Python whitespace. -/
def headOk : List Char → Bool
  | [] => true
  | c :: _ => !isPySpace c

/-- The final character, when present, is not Python whitespace. -/
def lastOk : List Char → Bool
  | [] => true
  | [c] => !isPySpace c
  | _ :: b :: rest => lastOk (b :: rest)

/-- Normal form of sanitizer outputs: no banned character, no adjacent
whitespace pair, no leading or trailing whitespace, bounded length, and
nonempty. -/
def sanNF (l : List Char) (maxLen : Nat) : Bool :=
  noBanned l && noAdjWS l && headOk l && lastOk l &&
    decide (l.length ≤ maxLen) && !l.isEmpty

/-- Concrete environment used by the witnesses and counterexamples: every
file parses to a message with a `Date` header `"d"` (rendering to the fixed
timestamp) and subject `"Hi"`, the content hash is a fixed hex string, and
header decoding is the identity. -/
def envC : Env where
  readMsg := fun _ => ⟨[("Date", "d"), ("Subject", "Hi")]⟩
  parseDate := fun s => if s == "d" then some ⟨"2024-01-01 093000"⟩ else none
  sha256hex := fun _ => "aabbccdd99887766"
  decodeHdr := fun s => some s

/-- Concrete directory with a single file `a.eml` of empty content. -/
def fs0 : FS := fun n => if n == "a.eml" then some [] else none

/-- The hash-policy target name `envC` produces for any file. -/
def tHash : String := "2024-01-01 093000 Hi_aabbccdd.eml"

/-- The no-hash target name `envC` produces for any file. -/
def tPlain : String := "2024-01-01 093000 Hi.eml"

/-- Concrete directory in which every name whatsoever is occupied; drives the
numeric-suffix probe to exhaustion. -/
def fsAll : FS := fun _ => some []

/-- Concrete message carrying a `Received` trace line (whose text after the
final semicolon is `"Mon, 1 Jan"`) and a `Date` header with a later date. -/
def msgRecv : Message :=
  ⟨[("Received", "from relay;Mon, 1 Jan"), ("Date", "Tue, 2 Jan")]⟩

/-- Environment whose date parser maps the `Date` value and the `Received`
date fragment to two distinct timestamps. -/
def envRecv : Env where
  readMsg := fun _ => msgRecv
  parseDate := fun s =>
    if s == "Tue, 2 Jan" then some ⟨"2024-01-02 000000"⟩
    else if s == "Mon, 1 Jan" then some ⟨"2024-01-01 000000"⟩
    else none
  sha256hex := fun _ => ""
  decodeHdr := fun s => some s

/-- Environment whose messages carry no `Date` header at all. -/
def envNoDate : Env where
  readMsg := fun _ => ⟨[("Subject", "Hi")]⟩
  parseDate := fun _ => none
  sha256hex := fun _ => ""
  decodeHdr := fun s => some s

/-- The directory contents after the first hash-policy run of `envC` moved
`a.eml` to its hash-suffixed name. -/
def fs1 : FS := fsMove fs0 "a.eml" tHash

/-- The name the second hash-policy run (duplicate policy `suffix`) moves the
already-renamed file to. -/
def tHash1 : String := "2024-01-01 093000 Hi_aabbccdd (1).eml"

theorem rstripL_cons (c : Char) (cs : List Char) :
    rstripL (c :: cs) =
      match rstripL cs with
      | [] => if isPySpace c then [] else [c]
      | d :: ds => c :: d :: ds := rfl

theorem subBanned_cons2 (a b : Char) (rest : List Char) :
    subBanned (a :: b :: rest) =
      if isBanned a then
        if isBanned b then subBanned (b :: rest) else ' ' :: subBanned (b :: rest)
      else a :: subBanned (b :: rest) := rfl

theorem rstripL_eq_nil (c : Char) (cs : List Char) (hr : rstripL cs = []) :
    rstripL (c :: cs) = if isPySpace c then [] else [c] := by
  rw [rstripL_cons, hr]

theorem rstripL_eq_cons (c : Char) (cs : List Char) (d : Char) (ds : List Char)
    (hr : rstripL cs = d :: ds) :
    rstripL (c :: cs) = c :: d :: ds := by
  rw [rstripL_cons, hr]

theorem noBanned_iff {c : Char} {l : List Char} :
    noBanned (c :: l) = true ↔ isBanned c = false ∧ noBanned l = true := by
  simp [noBanned, Bool.not_eq_true']

theorem noAdj_cons_cons {a b : Char} {rest : List Char}
    (h : noAdjWS (a :: b :: rest) = true) :
    (isPySpace a && isPySpace b) = false ∧ noAdjWS (b :: rest) = true := by
  have h' : (!(isPySpace a && isPySpace b) && noAdjWS (b :: rest)) = true := h
  simp only [Bool.and_eq_true, Bool.not_eq_true'] at h'
  exact h'

theorem noAdj_tail {a : Char} {l : List Char} (h : noAdjWS (a :: l) = true) :
    noAdjWS l = true := by
  cases l with
  | nil => rfl
  | cons b bs => exact (noAdj_cons_cons h).2

theorem noAdj_cons_of (a : Char) (l : List Char) (h1 : noAdjWS l = true)
    (h2 : ∀ b, l.head? = some b → (isPySpace a && isPySpace b) = false) :
    noAdjWS (a :: l) = true := by
  cases l with
  | nil => rfl
  | cons b bs =>
    show (!(isPySpace a && isPySpace b) && noAdjWS (b :: bs)) = true
    rw [h2 b rfl, h1]
    rfl

theorem lastOk_cons {a : Char} {l : List Char} (h : l ≠ []) :
    lastOk (a :: l) = lastOk l := by
  cases l with
  | nil => exact absurd rfl h
  | cons b bs => rfl

theorem sb_noBanned : ∀ l : List Char, noBanned (subBanned l) = true
  | [] => rfl
  | [c] => by
    cases hc : isBanned c
    · simp [subBanned, noBanned, hc]
    · simp [subBanned, hc]
      decide
  | a :: b :: rest => by
    have ih := sb_noBanned (b :: rest)
    rw [subBanned_cons2]
    split
    · split
      · exact ih
      · exact noBanned_iff.mpr ⟨by decide, ih⟩
    · next ha =>
      have ha' : isBanned a = false := by simpa using ha
      exact noBanned_iff.mpr ⟨ha', ih⟩

theorem sb_id : ∀ l : List Char, noBanned l = true → subBanned l = l
  | [], _ => rfl
  | [c], h => by
    have hc : isBanned c = false := (noBanned_iff.mp h).1
    simp [subBanned, hc]
  | a :: b :: rest, h => by
    obtain ⟨ha, h2⟩ := noBanned_iff.mp h
    have ih := sb_id (b :: rest) h2
    rw [subBanned_cons2, if_neg]
    · rw [ih]
    · simp [ha]

theorem dws_headOk (l : List Char) : headOk (l.dropWhile isPySpace) = true := by
  induction l with
  | nil => rfl
  | cons c cs ih =>
    cases hc : isPySpace c
    · simp [List.dropWhile_cons, hc, headOk]
    · simpa [List.dropWhile_cons, hc] using ih

theorem dws_id (l : List Char) (h : headOk l = true) : l.dropWhile isPySpace = l := by
  cases l with
  | nil => rfl
  | cons c cs =>
    simp [headOk, Bool.not_eq_true'] at h
    simp [List.dropWhile_cons, h]

theorem dws_noBanned (l : List Char) (h : noBanned l = true) :
    noBanned (l.dropWhile isPySpace) = true := by
  simp only [noBanned, List.all_eq_true] at h ⊢
  intro x hx
  exact h x (List.dropWhile_subset isPySpace hx)

theorem rs_mem : ∀ (l : List Char) (x : Char), x ∈ rstripL l → x ∈ l
  | [], _ => fun h => h
  | c :: cs, x => by
    cases hr : rstripL cs with
    | nil =>
      rw [rstripL_eq_nil c cs hr]
      intro h
      split at h
      · cases h
      · simp at h
        simp [h]
    | cons d ds =>
      rw [rstripL_eq_cons c cs d ds hr]
      intro h
      rcases List.mem_cons.mp h with h1 | h2
      · simp [h1]
      · exact List.mem_cons_of_mem c (rs_mem cs x (by rw [hr]; exact h2))

theorem rs_noBanned (l : List Char) (h : noBanned l = true) :
    noBanned (rstripL l) = true := by
  simp only [noBanned, List.all_eq_true] at h ⊢
  intro x hx
  exact h x (rs_mem l x hx)

theorem rs_len : ∀ l : List Char, (rstripL l).length ≤ l.length
  | [] => Nat.le_refl 0
  | c :: cs => by
    have ih := rs_len cs
    cases hr : rstripL cs with
    | nil =>
      rw [rstripL_eq_nil c cs hr]
      split <;> simp <;> omega
    | cons d ds =>
      rw [rstripL_eq_cons c cs d ds hr]
      rw [hr] at ih
      simp at ih ⊢
      omega

theorem rs_ne_nil : ∀ l : List Char, headOk l = true → l ≠ [] → rstripL l ≠ []
  | c :: cs, h, _ => by
    simp [headOk, Bool.not_eq_true'] at h
    cases hr : rstripL cs <;> simp [rstripL, hr, h]

theorem rs_headOk : ∀ l : List Char, headOk l = true → headOk (rstripL l) = true
  | [], _ => rfl
  | c :: cs, h => by
    cases hr : rstripL cs with
    | nil =>
      simp only [rstripL, hr]
      split
      · rfl
      · exact h
    | cons d ds => simpa [rstripL, hr, headOk] using h

theorem rs_head? : ∀ l : List Char, rstripL l = [] ∨ (rstripL l).head? = l.head?
  | [] => Or.inl rfl
  | c :: cs => by
    cases hr : rstripL cs with
    | nil =>
      simp only [rstripL, hr]
      split
      · exact Or.inl rfl
      · exact Or.inr rfl
    | cons d ds => exact Or.inr (by simp [rstripL, hr])

theorem rs_lastOk : ∀ l : List Char, lastOk (rstripL l) = true
  | [] => rfl
  | c :: cs => by
    have ih := rs_lastOk cs
    cases hr : rstripL cs with
    | nil =>
      simp only [rstripL, hr]
      cases hc : isPySpace c <;> simp [lastOk, hc]
    | cons d ds =>
      rw [hr] at ih
      simp only [rstripL, hr]
      rw [lastOk_cons (List.cons_ne_nil d ds)]
      exact ih

theorem rs_id : ∀ l : List Char, lastOk l = true → rstripL l = l
  | [], _ => rfl
  | [c], h => by
    simp [lastOk, Bool.not_eq_true'] at h
    simp [rstripL, h]
  | a :: b :: rest, h => by
    have ih := rs_id (b :: rest) h
    rw [rstripL_cons, ih]

theorem rs_noAdj : ∀ l : List Char, noAdjWS l = true → noAdjWS (rstripL l) = true
  | [], _ => rfl
  | c :: cs, h => by
    have ih := rs_noAdj cs (noAdj_tail h)
    cases hr : rstripL cs with
    | nil =>
      simp only [rstripL, hr]
      split <;> rfl
    | cons d ds =>
      rw [hr] at ih
      simp only [rstripL, hr]
      refine noAdj_cons_of c (d :: ds) ih ?_
      intro b hb
      simp at hb
      subst hb
      rcases rs_head? cs with h0 | h0
      · rw [h0] at hr; cases hr
      · rw [hr] at h0
        cases cs with
        | nil => cases h0
        | cons e es =>
          simp at h0
          subst h0
          exact (noAdj_cons_cons h).1

theorem collapseGo_cons2 (fuel : Nat) (a b : Char) (rest : List Char) :
    collapseGo (fuel + 1) (a :: b :: rest) =
      if isPySpace a && isPySpace b then collapseGo fuel (' ' :: rest)
      else a :: collapseGo fuel (b :: rest) := rfl

theorem cg_nil (fuel : Nat) : collapseGo fuel [] = [] := by
  cases fuel <;> rfl

theorem cg_singleton (fuel : Nat) (c : Char) : collapseGo fuel [c] = [c] := by
  cases fuel <;> rfl

theorem cg_id : ∀ (fuel : Nat) (l : List Char), noAdjWS l = true → collapseGo fuel l = l
  | fuel, [], _ => cg_nil fuel
  | fuel, [c], _ => cg_singleton fuel c
  | 0, _ :: _ :: _, _ => rfl
  | fuel + 1, a :: b :: rest, h => by
    obtain ⟨hab, h2⟩ := noAdj_cons_cons h
    rw [collapseGo_cons2, if_neg (by simp [hab]), cg_id fuel (b :: rest) h2]

theorem cg_ne_nil : ∀ (fuel : Nat) (l : List Char), l ≠ [] → collapseGo fuel l ≠ []
  | _, [c], _ => by rw [cg_singleton]; exact List.cons_ne_nil c []
  | 0, _ :: _ :: _, _ => List.cons_ne_nil _ _
  | fuel + 1, a :: b :: rest, _ => by
    rw [collapseGo_cons2]
    split
    · exact cg_ne_nil fuel (' ' :: rest) (List.cons_ne_nil ' ' rest)
    · exact List.cons_ne_nil _ _

theorem cg_head? : ∀ (fuel : Nat) (b : Char) (rest : List Char),
    (collapseGo fuel (b :: rest)).head? = some b ∨
      ((collapseGo fuel (b :: rest)).head? = some ' ' ∧ isPySpace b = true)
  | fuel, b, [] => by rw [cg_singleton]; exact Or.inl rfl
  | 0, b, _ :: _ => Or.inl rfl
  | fuel + 1, b, c :: r => by
    rw [collapseGo_cons2]
    cases hb : isPySpace b && isPySpace c
    · rw [if_neg (by simp [hb])]
      exact Or.inl rfl
    · rw [if_pos (by simp [hb])]
      have hbs : isPySpace b = true := (Bool.and_eq_true _ _ |>.mp hb).1
      rcases cg_head? fuel ' ' r with h | h
      · exact Or.inr ⟨h, hbs⟩
      · exact Or.inr ⟨h.1, hbs⟩

theorem cg_noAdj : ∀ (fuel : Nat) (l : List Char), l.length ≤ fuel + 1 →
    noAdjWS (collapseGo fuel l) = true
  | fuel, [], _ => by rw [cg_nil]; rfl
  | fuel, [c], _ => by rw [cg_singleton]; rfl
  | 0, a :: b :: rest, h => by
    exfalso
    simp [List.length_cons] at h
  | fuel + 1, a :: b :: rest, h => by
    have hlen : rest.length + 2 ≤ fuel + 2 := by simpa [List.length_cons] using h
    rw [collapseGo_cons2]
    cases hab : isPySpace a && isPySpace b
    · rw [if_neg (by simp [hab])]
      have ih := cg_noAdj fuel (b :: rest) (by simp [List.length_cons]; omega)
      refine noAdj_cons_of a _ ih ?_
      intro x hx
      rcases cg_head? fuel b rest with hh | hh
      · rw [hh] at hx
        cases hx
        exact hab
      · rw [hh.1] at hx
        cases hx
        cases hsa : isPySpace a
        · rfl
        · rw [hsa, hh.2] at hab
          cases hab
    · rw [if_pos (by simp [hab])]
      exact cg_noAdj fuel (' ' :: rest) (by simp [List.length_cons]; omega)

theorem cg_headOk : ∀ (fuel : Nat) (l : List Char), headOk l = true →
    headOk (collapseGo fuel l) = true
  | fuel, [], _ => by rw [cg_nil]; rfl
  | fuel, [c], h => by rw [cg_singleton]; exact h
  | 0, _ :: _ :: _, h => h
  | fuel + 1, a :: b :: rest, h => by
    have ha : isPySpace a = false := by simpa [headOk, Bool.not_eq_true'] using h
    rw [collapseGo_cons2, if_neg (by simp [ha])]
    simpa [headOk, Bool.not_eq_true'] using ha

theorem cg_lastOk : ∀ (fuel : Nat) (l : List Char), lastOk l = true →
    lastOk (collapseGo fuel l) = true
  | fuel, [], _ => by rw [cg_nil]; rfl
  | fuel, [c], h => by rw [cg_singleton]; exact h
  | 0, _ :: _ :: _, h => h
  | fuel + 1, a :: b :: rest, h => by
    rw [collapseGo_cons2]
    cases hab : isPySpace a && isPySpace b
    · rw [if_neg (by simp [hab])]
      have ih := cg_lastOk fuel (b :: rest) h
      rw [lastOk_cons (cg_ne_nil fuel (b :: rest) (List.cons_ne_nil b rest))]
      exact ih
    · rw [if_pos (by simp [hab])]
      cases rest with
      | nil =>
        exfalso
        have hbs : isPySpace b = true := (Bool.and_eq_true _ _ |>.mp hab).2
        have : lastOk [b] = true := h
        simp [lastOk, Bool.not_eq_true', hbs] at this
      | cons r rs =>
        exact cg_lastOk fuel (' ' :: r :: rs) h

theorem cg_noBanned : ∀ (fuel : Nat) (l : List Char), noBanned l = true →
    noBanned (collapseGo fuel l) = true
  | fuel, [], _ => by rw [cg_nil]; rfl
  | fuel, [c], h => by rw [cg_singleton]; exact h
  | 0, _ :: _ :: _, h => h
  | fuel + 1, a :: b :: rest, h => by
    obtain ⟨ha, h2⟩ := noBanned_iff.mp h
    obtain ⟨hb, h3⟩ := noBanned_iff.mp h2
    rw [collapseGo_cons2]
    cases hab : isPySpace a && isPySpace b
    · rw [if_neg (by simp [hab])]
      exact noBanned_iff.mpr ⟨ha, cg_noBanned fuel (b :: rest) h2⟩
    · rw [if_pos (by simp [hab])]
      exact cg_noBanned fuel (' ' :: rest) (noBanned_iff.mpr ⟨by decide, h3⟩)

theorem take_headOk (l : List Char) (n : Nat) (h : headOk l = true) :
    headOk (l.take n) = true := by
  cases l with
  | nil => simp [headOk]
  | cons c cs =>
    cases n with
    | zero => rfl
    | succ m => simpa [List.take, headOk] using h

theorem take_noAdj : ∀ (l : List Char) (n : Nat), noAdjWS l = true →
    noAdjWS (l.take n) = true
  | [], _, _ => by simp [noAdjWS]
  | _ :: _, 0, _ => rfl
  | [c], n + 1, _ => by
    simp [List.take, noAdjWS]
  | a :: b :: rest, n + 1, h => by
    obtain ⟨hab, h2⟩ := noAdj_cons_cons h
    have ih := take_noAdj (b :: rest) n h2
    cases n with
    | zero => rfl
    | succ m =>
      show noAdjWS (a :: b :: rest.take m) = true
      have : (!(isPySpace a && isPySpace b) && noAdjWS (b :: rest.take m)) = true := by
        rw [hab]
        simpa [List.take] using ih
      exact this

theorem take_noBanned (l : List Char) (n : Nat) (h : noBanned l = true) :
    noBanned (l.take n) = true := by
  simp only [noBanned, List.all_eq_true] at h ⊢
  intro x hx
  exact h x (List.take_subset n l hx)

theorem ss_NF (s : List Char) : sanNF (safeSubjectL s 120) 120 = true := by
  have hBh : headOk ((subBanned s).dropWhile isPySpace) = true := dws_headOk _
  have hBn : noBanned ((subBanned s).dropWhile isPySpace) = true :=
    dws_noBanned _ (sb_noBanned s)
  have hCh : headOk (stripL (subBanned s)) = true := rs_headOk _ hBh
  have hCl : lastOk (stripL (subBanned s)) = true := rs_lastOk _
  have hCn : noBanned (stripL (subBanned s)) = true := rs_noBanned _ hBn
  have hDa : noAdjWS (collapseWS (stripL (subBanned s))) = true :=
    cg_noAdj _ _ (Nat.le_succ _)
  have hDh : headOk (collapseWS (stripL (subBanned s))) = true := cg_headOk _ _ hCh
  have hDl : lastOk (collapseWS (stripL (subBanned s))) = true := cg_lastOk _ _ hCl
  have hDn : noBanned (collapseWS (stripL (subBanned s))) = true := cg_noBanned _ _ hCn
  simp only [safeSubjectL]
  set D := collapseWS (stripL (subBanned s)) with hD
  by_cases h120 : 120 < D.length
  · rw [if_pos h120]
    have hTh : headOk (D.take 120) = true := take_headOk D 120 hDh
    have hTne : D.take 120 ≠ [] := by
      have : D ≠ [] := by
        intro he
        rw [he] at h120
        simp at h120
      have hlen : (D.take 120).length = 120 := by
        rw [List.length_take]
        omega
      intro he
      rw [he] at hlen
      simp at hlen
    have hRne : rstripL (D.take 120) ≠ [] := rs_ne_nil _ hTh hTne
    rw [if_neg (by simpa [List.isEmpty_iff] using hRne)]
    have hlen : (rstripL (D.take 120)).length ≤ 120 := by
      have h1 := rs_len (D.take 120)
      have h2 : (D.take 120).length ≤ 120 := List.length_take_le 120 D
      omega
    simp only [sanNF, Bool.and_eq_true]
    refine ⟨⟨⟨⟨⟨?_, ?_⟩, ?_⟩, ?_⟩, ?_⟩, ?_⟩
    · exact rs_noBanned _ (take_noBanned D 120 hDn)
    · exact rs_noAdj _ (take_noAdj D 120 hDa)
    · exact rs_headOk _ hTh
    · exact rs_lastOk _
    · simpa using hlen
    · simpa [List.isEmpty_iff] using hRne
  · rw [if_neg h120]
    by_cases hE : D.isEmpty
    · rw [if_pos hE]
      decide
    · rw [if_neg hE]
      simp only [sanNF, Bool.and_eq_true]
      refine ⟨⟨⟨⟨⟨hDn, hDa⟩, hDh⟩, hDl⟩, ?_⟩, ?_⟩
      · simp
        omega
      · simpa using hE

theorem ss_id (l : List Char) (h : sanNF l 120 = true) : safeSubjectL l 120 = l := by
  simp only [sanNF, Bool.and_eq_true] at h
  obtain ⟨⟨⟨⟨⟨h1, h2⟩, h3⟩, h4⟩, h5⟩, h6⟩ := h
  have hlen : l.length ≤ 120 := by simpa using h5
  have hne : ¬ l.isEmpty = true := by simpa using h6
  have e1 : subBanned l = l := sb_id l h1
  have e2 : l.dropWhile isPySpace = l := dws_id l h3
  have e3 : rstripL l = l := rs_id l h4
  have e4 : collapseGo l.length l = l := cg_id _ _ h2
  simp only [safeSubjectL, stripL, collapseWS, e1, e2, e3, e4]
  have e5 : (if 120 < l.length then rstripL (List.take 120 l) else l) = l :=
    if_neg (by omega)
  rw [e5, if_neg hne]

/-- C7: the sanitizer is idempotent at the default maximum length: for every
string `s`, `_safe_subject(_safe_subject(s)) == _safe_subject(s)`. -/
theorem safeSubject_idempotent (s : String) :
    safeSubject (safeSubject s) = safeSubject s := by
  show (⟨safeSubjectL (safeSubjectL s.data 120) 120⟩ : String) = ⟨safeSubjectL s.data 120⟩
  rw [ss_id _ (ss_NF s.data)]

/-- C6: sanitizer totality at the default maximum length: the output of
`_safe_subject` is never the empty string (the fallback token `"untitled"`
fills in), and no character of the output is one of the filesystem-unsafe
characters or a raw CR or LF. -/
theorem safeSubject_total (s : String) :
    safeSubject s ≠ "" ∧ ∀ c ∈ (safeSubject s).data, isBanned c = false := by
  have h := ss_NF s.data
  simp only [sanNF, Bool.and_eq_true] at h
  obtain ⟨⟨⟨⟨⟨h1, _⟩, _⟩, _⟩, _⟩, h6⟩ := h
  constructor
  · intro he
    have hdata : safeSubjectL s.data 120 = [] := congrArg String.data he
    rw [hdata] at h6
    simp at h6
  · intro c hc
    have := List.all_eq_true.mp h1
    exact by simpa using this c hc

/-- Instantiation of `safeSubject_total` at a concrete input, discharging its
inner membership hypothesis. -/
theorem safeSubject_total_witness :
    safeSubject "a/b:c" ≠ "" ∧ ∀ c ∈ (safeSubject "a/b:c").data, isBanned c = false :=
  safeSubject_total "a/b:c"

theorem isSome_false_eq_none {α : Type} {o : Option α} (h : o.isSome = false) : o = none := by
  cases o
  · rfl
  · simp at h

theorem okPair_eq {o1 o2 : Outcome} {f1 f2 : FS}
    (h : (Except.ok (o1, f1) : Except Unit (Outcome × FS)) = .ok (o2, f2)) :
    o1 = o2 ∧ f1 = f2 := by
  injection h with h'
  exact ⟨congrArg Prod.fst h', congrArg Prod.snd h'⟩

theorem uniquePathGo_step (ex : String → Bool) (stem suf : String) (fuel i : Nat) :
    uniquePathGo ex stem suf (fuel + 1) i =
      if ex (numCand stem suf i) then uniquePathGo ex stem suf fuel (i + 1)
      else .ok (numCand stem suf i) := rfl

theorem uniquePathGo_fresh : ∀ (ex : String → Bool) (stem suf : String) (fuel i : Nat)
    (t : String), uniquePathGo ex stem suf fuel i = .ok t → ex t = false
  | ex, stem, suf, 0, i, t => by
    intro h
    simp [uniquePathGo] at h
  | ex, stem, suf, fuel + 1, i, t => by
    intro h
    rw [uniquePathGo_step] at h
    split at h
    · exact uniquePathGo_fresh ex stem suf fuel (i + 1) t h
    · next hex =>
      cases h
      simpa using hex

theorem uniquePath_fresh (ex : String → Bool) (base t : String)
    (h : uniquePath ex base = .ok t) : ex t = false := by
  unfold uniquePath at h
  split at h
  · exact uniquePathGo_fresh ex _ _ 9999 1 t h
  · next hex =>
    cases h
    simpa using hex

theorem uniquePathGo_allExists (ex : String → Bool) (stem suf : String)
    (hall : ∀ p, ex p = true) :
    ∀ (fuel i : Nat), uniquePathGo ex stem suf fuel i = .error ()
  | 0, _ => rfl
  | fuel + 1, i => by
    rw [uniquePathGo_step, if_pos (hall _)]
    exact uniquePathGo_allExists ex stem suf hall fuel (i + 1)

theorem applyRename_dry (fs : FS) (src target : String) :
    applyRename fs src target true = .ok (.dryRunPlan src target, fs) := rfl

theorem applyRename_go (fs : FS) (src target : String) :
    applyRename fs src target false = .ok (.renamed src target, fsMove fs src target) := rfl

theorem fsMove_keep (fs : FS) (src tgt p : String) (c : Content)
    (hp : fs p = some c) (hps : p ≠ src) (hpt : p ≠ tgt) :
    fsMove fs src tgt p = some c := by
  simp [fsMove, hps, hpt, hp]

theorem renameFile_readErr (env : Env) (fs : FS) (src mode uniq onDup : String)
    (dryRun verbose : Bool) (hc : fs src = none) :
    renameFile env fs src mode uniq onDup dryRun verbose = .ok (.errorRead, fs) := by
  unfold renameFile
  rw [hc]

theorem renameFile_noDate (env : Env) (fs : FS) (src mode uniq onDup : String)
    (dryRun verbose : Bool) (c : Content) (hc : fs src = some c)
    (hd : extractDatetime env (env.readMsg c) mode = none) :
    renameFile env fs src mode uniq onDup dryRun verbose = .ok (.skippedNoDate, fs) := by
  simp only [renameFile, hc, hd]

theorem renameFile_split (env : Env) (fs : FS) (src mode uniq onDup : String)
    (dryRun verbose : Bool) (c : Content) (dt : DateTime)
    (hc : fs src = some c)
    (hd : extractDatetime env (env.readMsg c) mode = some dt) :
    renameFile env fs src mode uniq onDup dryRun verbose =
      if (fs (targetName env c dt uniq)).isSome then
        if onDup == "skip" then .ok (.skippedExists (targetName env c dt uniq), fs)
        else if onDup == "overwrite" then
          applyRename fs src (targetName env c dt uniq) dryRun
        else
          match uniquePath (fun p => (fs p).isSome) (targetName env c dt uniq) with
          | .error e => .error e
          | .ok t => applyRename fs src t dryRun
      else applyRename fs src (targetName env c dt uniq) dryRun := by
  simp only [renameFile, hc, hd]

theorem applyRename_cases (fs : FS) (src tgt : String) (dryRun : Bool)
    (out : Outcome) (fs2 : FS) (hfree : fs tgt = none)
    (h : applyRename fs src tgt dryRun = .ok (out, fs2)) :
    (∀ s t, out = .renamed s t → fs t = none) ∧
      (∀ p c, fs p = some c → p ≠ src → fs2 p = some c) := by
  cases dryRun with
  | true =>
    rw [applyRename_dry] at h
    obtain ⟨ho, hf⟩ := okPair_eq h
    subst ho
    subst hf
    exact ⟨(fun s t hst => by cases hst), (fun p c hp _ => hp)⟩
  | false =>
    rw [applyRename_go] at h
    obtain ⟨ho, hf⟩ := okPair_eq h
    subst ho
    subst hf
    constructor
    · intro s t hst
      cases hst
      exact hfree
    · intro p c hp hps
      have hpt : p ≠ tgt := by
        intro he
        rw [he, hfree] at hp
        cases hp
      exact fsMove_keep fs src tgt p c hp hps hpt

/-- C1: under any duplicate policy other than `overwrite`, `_rename_file`
either skips the file or renames it onto a target it has verified not to
exist: whenever the outcome is `renamed src t`, the target `t` was free
beforehand, and every pre-existing file other than the source keeps its
content. -/
theorem claim1_no_silent_overwrite
    (env : Env) (fs : FS) (src mode uniq onDup : String) (dryRun verbose : Bool)
    (out : Outcome) (fs2 : FS)
    (hpol : onDup ≠ "overwrite")
    (h : renameFile env fs src mode uniq onDup dryRun verbose = .ok (out, fs2)) :
    (∀ s t, out = .renamed s t → fs t = none) ∧
      (∀ p c, fs p = some c → p ≠ src → fs2 p = some c) := by
  cases hc : fs src with
  | none =>
    rw [renameFile_readErr env fs src mode uniq onDup dryRun verbose hc] at h
    obtain ⟨ho, hf⟩ := okPair_eq h
    subst ho
    subst hf
    exact ⟨(fun s t hst => by cases hst), (fun p c hp _ => hp)⟩
  | some c =>
    cases hd : extractDatetime env (env.readMsg c) mode with
    | none =>
      rw [renameFile_noDate env fs src mode uniq onDup dryRun verbose c hc hd] at h
      obtain ⟨ho, hf⟩ := okPair_eq h
      subst ho
      subst hf
      exact ⟨(fun s t hst => by cases hst), (fun p c hp _ => hp)⟩
    | some dt =>
      rw [renameFile_split env fs src mode uniq onDup dryRun verbose c dt hc hd] at h
      by_cases hex : (fs (targetName env c dt uniq)).isSome = true
      · rw [if_pos hex] at h
        by_cases hskip : (onDup == "skip") = true
        · rw [if_pos hskip] at h
          obtain ⟨ho, hf⟩ := okPair_eq h
          subst ho
          subst hf
          exact ⟨(fun s t hst => by cases hst), (fun p c hp _ => hp)⟩
        · rw [if_neg hskip] at h
          have hov : ¬((onDup == "overwrite") = true) := by
            intro hob
            exact hpol (by simpa using hob)
          rw [if_neg hov] at h
          cases hu : uniquePath (fun p => (fs p).isSome) (targetName env c dt uniq) with
          | error e =>
            rw [hu] at h
            simp at h
          | ok t =>
            simp only [hu] at h
            have hfree : fs t = none :=
              isSome_false_eq_none (uniquePath_fresh _ _ t hu)
            exact applyRename_cases fs src t dryRun out fs2 hfree h
      · rw [if_neg hex] at h
        have hfree : fs (targetName env c dt uniq) = none :=
          isSome_false_eq_none (by simpa using hex)
        exact applyRename_cases fs src (targetName env c dt uniq) dryRun out fs2 hfree h

/-- Instantiation of `claim1_no_silent_overwrite` at a concrete run:
duplicate policy `suffix`, a single-file directory, hash uniqueness. -/
theorem claim1_witness :
    ("suffix" : String) ≠ "overwrite" ∧
      ((∀ s t, Outcome.renamed "a.eml" tHash = .renamed s t → fs0 t = none) ∧
        (∀ p c, fs0 p = some c → p ≠ "a.eml" → fsMove fs0 "a.eml" tHash p = some c)) :=
  ⟨by decide,
    claim1_no_silent_overwrite envC fs0 "a.eml" "received" "hash" "suffix" false false
      (.renamed "a.eml" tHash) (fsMove fs0 "a.eml" tHash) (by decide) (by rfl)⟩

theorem processAll_cons (env : Env) (mode uniq onDup : String) (dryRun verbose : Bool)
    (n : String) (rest : List String) (fs : FS) :
    processAll env mode uniq onDup dryRun verbose (n :: rest) fs =
      match renameFile env fs n mode uniq onDup dryRun verbose with
      | .error _ => ([], fs, true)
      | .ok (o, fs') =>
        (o :: (processAll env mode uniq onDup dryRun verbose rest fs').1,
          (processAll env mode uniq onDup dryRun verbose rest fs').2.1,
          (processAll env mode uniq onDup dryRun verbose rest fs').2.2) := rfl

/-- C10: `_extract_datetime` is insensitive to its `mode` argument — the two
CLI modes `received` and `sent` (and any other value) read only the `Date`
header and return identical results on every message. -/
theorem claim10_mode_noninterference (env : Env) (msg : Message) (m1 m2 : String) :
    extractDatetime env msg m1 = extractDatetime env msg m2 := rfl

/-- Counterexample to C5: with mode `received` selected and a `Received`
header present, `_extract_datetime` returns the parse of the `Date` header,
which differs from the parse of the `Received` value's trailing date
fragment (`"Mon, 1 Jan"`, the text after its final semicolon). -/
theorem claim5_counterexample :
    extractDatetime envRecv msgRecv "received" = some ⟨"2024-01-02 000000"⟩ ∧
      envRecv.parseDate "Mon, 1 Jan" = some ⟨"2024-01-01 000000"⟩ ∧
      (⟨"2024-01-01 000000"⟩ : DateTime) ≠ ⟨"2024-01-02 000000"⟩ := by
  refine ⟨rfl, rfl, ?_⟩
  decide

/-- C5 (amended): timestamp extraction never consults `Received` headers:
prepending any header whose name is not `Date` (case-insensitively) — in
particular any `Received` line — leaves the result of `_extract_datetime`
unchanged, in every mode. -/
theorem claim5_received_ignored (env : Env) (hs : List (String × String))
    (mode n v : String) (hn : lowerStr n ≠ lowerStr "Date") :
    extractDatetime env ⟨(n, v) :: hs⟩ mode = extractDatetime env ⟨hs⟩ mode := by
  unfold extractDatetime
  have hget : Message.get ⟨(n, v) :: hs⟩ "Date" = Message.get ⟨hs⟩ "Date" := by
    unfold Message.get
    rw [List.find?_cons_of_neg _ (by simpa using hn)]
  rw [hget]

/-- Instantiation of `claim5_received_ignored`: prepending the `Received`
line of `msgRecv` to its `Date`-only tail does not change extraction. -/
theorem claim5_received_ignored_witness :
    lowerStr "Received" ≠ lowerStr "Date" ∧
      extractDatetime envRecv ⟨[("Received", "from relay;Mon, 1 Jan"), ("Date", "Tue, 2 Jan")]⟩
          "received" =
        extractDatetime envRecv ⟨[("Date", "Tue, 2 Jan")]⟩ "received" :=
  ⟨by decide,
    claim5_received_ignored envRecv [("Date", "Tue, 2 Jan")] "received" "Received"
      "from relay;Mon, 1 Jan" (by decide)⟩

/-- C8: when the `Date` header is absent or fails to parse, extraction yields
`None` instead of raising, `_rename_file` reports the no-date skip without
touching the directory, and the batch loop continues with the remaining
files. -/
theorem claim8_noDate_skip (env : Env) (fs : FS) (src mode uniq onDup : String)
    (dryRun verbose : Bool) (c : Content) (rest : List String)
    (hc : fs src = some c)
    (hd : extractDatetime env (env.readMsg c) mode = none) :
    renameFile env fs src mode uniq onDup dryRun verbose = .ok (.skippedNoDate, fs) ∧
      processAll env mode uniq onDup dryRun verbose (src :: rest) fs =
        (Outcome.skippedNoDate :: (processAll env mode uniq onDup dryRun verbose rest fs).1,
          (processAll env mode uniq onDup dryRun verbose rest fs).2.1,
          (processAll env mode uniq onDup dryRun verbose rest fs).2.2) := by
  have h1 := renameFile_noDate env fs src mode uniq onDup dryRun verbose c hc hd
  refine ⟨h1, ?_⟩
  rw [processAll_cons]
  simp only [h1]

/-- Instantiation of `claim8_noDate_skip` on a two-file batch whose messages
have no `Date` header. -/
theorem claim8_witness :
    fs0 "a.eml" = some ([] : Content) ∧
      extractDatetime envNoDate (envNoDate.readMsg []) "received" = none ∧
      (renameFile envNoDate fs0 "a.eml" "received" "hash" "suffix" false false =
          .ok (.skippedNoDate, fs0) ∧
        processAll envNoDate "received" "hash" "suffix" false false ("a.eml" :: ["b.eml"]) fs0 =
          (Outcome.skippedNoDate ::
              (processAll envNoDate "received" "hash" "suffix" false false ["b.eml"] fs0).1,
            (processAll envNoDate "received" "hash" "suffix" false false ["b.eml"] fs0).2.1,
            (processAll envNoDate "received" "hash" "suffix" false false ["b.eml"] fs0).2.2)) :=
  ⟨rfl, rfl,
    claim8_noDate_skip envNoDate fs0 "a.eml" "received" "hash" "suffix" false false []
      ["b.eml"] rfl rfl⟩

theorem renameFile_dry_cases (env : Env) (fs : FS) (src mode uniq onDup : String)
    (verbose : Bool) :
    renameFile env fs src mode uniq onDup true verbose = .error () ∨
      ∃ o, renameFile env fs src mode uniq onDup true verbose = .ok (o, fs) ∧
        (∀ s t, o ≠ .renamed s t) ∧
        (o = .errorRead ∨ o = .skippedNoDate ∨ (∃ t, o = .skippedExists t) ∨
          ∃ s t, o = .dryRunPlan s t) := by
  cases hc : fs src with
  | none =>
    right
    refine ⟨.errorRead, renameFile_readErr env fs src mode uniq onDup true verbose hc,
      (fun s t h => by cases h), Or.inl rfl⟩
  | some c =>
    cases hd : extractDatetime env (env.readMsg c) mode with
    | none =>
      right
      refine ⟨.skippedNoDate, renameFile_noDate env fs src mode uniq onDup true verbose c hc hd,
        (fun s t h => by cases h), Or.inr (Or.inl rfl)⟩
    | some dt =>
      rw [renameFile_split env fs src mode uniq onDup true verbose c dt hc hd]
      by_cases hex : (fs (targetName env c dt uniq)).isSome = true
      · rw [if_pos hex]
        by_cases hskip : (onDup == "skip") = true
        · rw [if_pos hskip]
          right
          exact ⟨.skippedExists (targetName env c dt uniq), rfl,
            (fun s t h => by cases h), Or.inr (Or.inr (Or.inl ⟨_, rfl⟩))⟩
        · rw [if_neg hskip]
          by_cases hov : (onDup == "overwrite") = true
          · rw [if_pos hov, applyRename_dry]
            right
            exact ⟨.dryRunPlan src (targetName env c dt uniq), rfl,
              (fun s t h => by cases h), Or.inr (Or.inr (Or.inr ⟨_, _, rfl⟩))⟩
          · rw [if_neg hov]
            cases hu : uniquePath (fun p => (fs p).isSome) (targetName env c dt uniq) with
            | error e =>
              left
              rfl
            | ok t =>
              right
              exact ⟨.dryRunPlan src t, rfl,
                (fun s t h => by cases h), Or.inr (Or.inr (Or.inr ⟨_, _, rfl⟩))⟩
      · rw [if_neg hex, applyRename_dry]
        right
        exact ⟨.dryRunPlan src (targetName env c dt uniq), rfl,
          (fun s t h => by cases h), Or.inr (Or.inr (Or.inr ⟨_, _, rfl⟩))⟩

/-- C9: with `dry_run` set, processing any list of files leaves the directory
exactly as it was, no rename outcome is ever produced, and every reported
outcome is a read error, a skip, or the dry-run report naming the would-be
target. -/
theorem claim9_dryRun_frame (env : Env) (mode uniq onDup : String) (verbose : Bool) :
    ∀ (names : List String) (fs : FS),
      (processAll env mode uniq onDup true verbose names fs).2.1 = fs ∧
        ∀ o ∈ (processAll env mode uniq onDup true verbose names fs).1,
          (∀ s t, o ≠ .renamed s t) ∧
            (o = .errorRead ∨ o = .skippedNoDate ∨ (∃ t, o = .skippedExists t) ∨
              ∃ s t, o = .dryRunPlan s t)
  | [], fs => ⟨rfl, by intro o ho; cases ho⟩
  | n :: rest, fs => by
    rcases renameFile_dry_cases env fs n mode uniq onDup verbose with h | ⟨o, h, hno, hshape⟩
    · rw [processAll_cons]
      simp only [h]
      refine ⟨by simp, ?_⟩
      intro o ho
      cases ho
    · rw [processAll_cons]
      simp only [h]
      have ih := claim9_dryRun_frame env mode uniq onDup verbose rest fs
      refine ⟨ih.1, ?_⟩
      intro o' ho'
      rcases List.mem_cons.mp ho' with h1 | h2
      · subst h1
        exact ⟨hno, hshape⟩
      · exact ih.2 o' h2

/-- Instantiation of `claim9_dryRun_frame` on a concrete one-file batch. -/
theorem claim9_witness :
    (processAll envC "received" "hash" "suffix" true false ["a.eml"] fs0).2.1 = fs0 ∧
      ∀ o ∈ (processAll envC "received" "hash" "suffix" true false ["a.eml"] fs0).1,
        (∀ s t, o ≠ .renamed s t) ∧
          (o = .errorRead ∨ o = .skippedNoDate ∨ (∃ t, o = .skippedExists t) ∨
            ∃ s t, o = .dryRunPlan s t) :=
  claim9_dryRun_frame envC "received" "hash" "suffix" false ["a.eml"] fs0

/-- Counterexample to C2: under `--uniq hash` with the default duplicate
policy `suffix`, the first run renames `a.eml` to its hash-suffixed name, and
a second run on the unchanged file renames it again, appending `" (1)"`:
hash-mode processing is not idempotent. -/
theorem claim2_counterexample :
    outcomeOf (renameFile envC fs0 "a.eml" "received" "hash" "suffix" false false) =
        some (.renamed "a.eml" tHash) ∧
      outcomeOf (renameFile envC fs1 tHash "received" "hash" "suffix" false false) =
        some (.renamed tHash tHash1) ∧
      tHash1 ≠ tHash := by
  exact ⟨by decide, by decide, by decide⟩

/-- Helper for the amended C2: if a `--uniq hash --on-dup skip` run renamed
`src` to `t`, running again on the unchanged file reports the
existing-target skip and leaves both the name and the directory unchanged. -/
theorem hash_skip_rerun_aux (env : Env) (fs : FS) (src mode : String)
    (verbose : Bool) (c : Content) (t : String) (fs2 : FS)
    (hc : fs src = some c)
    (h : renameFile env fs src mode "hash" "skip" false verbose = .ok (.renamed src t, fs2)) :
    renameFile env fs2 t mode "hash" "skip" false verbose = .ok (.skippedExists t, fs2) := by
  cases hd : extractDatetime env (env.readMsg c) mode with
  | none =>
    rw [renameFile_noDate env fs src mode "hash" "skip" false verbose c hc hd] at h
    obtain ⟨ho, _⟩ := okPair_eq h
    cases ho
  | some dt =>
    rw [renameFile_split env fs src mode "hash" "skip" false verbose c dt hc hd] at h
    by_cases hex : (fs (targetName env c dt "hash")).isSome = true
    · rw [if_pos hex, if_pos (by decide)] at h
      obtain ⟨ho, _⟩ := okPair_eq h
      cases ho
    · rw [if_neg hex, applyRename_go] at h
      obtain ⟨ho, hf⟩ := okPair_eq h
      injection ho with h1 h2
      subst h2
      subst hf
      have hread : fsMove fs src (targetName env c dt "hash") (targetName env c dt "hash") =
          some c := by
        simp [fsMove, hc]
      rw [renameFile_split env (fsMove fs src (targetName env c dt "hash"))
        (targetName env c dt "hash") mode "hash" "skip" false verbose c dt hread hd]
      rw [if_pos (by rw [hread]; rfl), if_pos (by decide)]

/-- Helper for the amended C2: if a `--uniq hash --on-dup overwrite` run
renamed `src` to `t`, running again on the unchanged file computes the same
target and `os.replace`s the file onto its own name — a no-op: the outcome
is `renamed t t` and the directory is pointwise unchanged. -/
theorem hash_overwrite_rerun_aux (env : Env) (fs : FS) (src mode : String)
    (verbose : Bool) (c : Content) (t : String) (fs2 : FS)
    (hc : fs src = some c)
    (h : renameFile env fs src mode "hash" "overwrite" false verbose =
      .ok (.renamed src t, fs2)) :
    renameFile env fs2 t mode "hash" "overwrite" false verbose =
        .ok (.renamed t t, fsMove fs2 t t) ∧
      ∀ p, fsMove fs2 t t p = fs2 p := by
  cases hd : extractDatetime env (env.readMsg c) mode with
  | none =>
    rw [renameFile_noDate env fs src mode "hash" "overwrite" false verbose c hc hd] at h
    obtain ⟨ho, _⟩ := okPair_eq h
    cases ho
  | some dt =>
    rw [renameFile_split env fs src mode "hash" "overwrite" false verbose c dt hc hd] at h
    have hmain : t = targetName env c dt "hash" ∧
        fs2 = fsMove fs src (targetName env c dt "hash") := by
      by_cases hex : (fs (targetName env c dt "hash")).isSome = true
      · rw [if_pos hex, if_neg (by decide), if_pos (by decide), applyRename_go] at h
        obtain ⟨ho, hf⟩ := okPair_eq h
        injection ho with h1 h2
        exact ⟨h2.symm, hf.symm⟩
      · rw [if_neg hex, applyRename_go] at h
        obtain ⟨ho, hf⟩ := okPair_eq h
        injection ho with h1 h2
        exact ⟨h2.symm, hf.symm⟩
    obtain ⟨ht, hfs2⟩ := hmain
    subst ht
    subst hfs2
    have hread : fsMove fs src (targetName env c dt "hash")
        (targetName env c dt "hash") = some c := by
      simp [fsMove, hc]
    constructor
    · rw [renameFile_split env (fsMove fs src (targetName env c dt "hash"))
        (targetName env c dt "hash") mode "hash" "overwrite" false verbose c dt hread hd]
      rw [if_pos (by rw [hread]; rfl), if_neg (by decide), if_pos (by decide),
        applyRename_go]
    · intro p
      by_cases hp : p = targetName env c dt "hash"
      · simp [fsMove, hp]
      · simp [fsMove, hp]

/-- C2 (amended): with `--uniq hash`, re-running on an unchanged file keeps
the final name when the duplicate policy is `skip` (the run reports the
existing target and skips) and also when it is `overwrite` (the run renames
the file onto its own name, a no-op replace); in both cases the directory is
unchanged.  Under the default duplicate policy `suffix` the second run
renames the file again, appending `" (1)"` (see the counterexample). -/
theorem claim2_hash_rerun_idem (env : Env) (fs : FS) (src mode od : String)
    (verbose : Bool) (c : Content) (t : String) (fs2 : FS)
    (hod : od = "skip" ∨ od = "overwrite")
    (hc : fs src = some c)
    (h : renameFile env fs src mode "hash" od false verbose = .ok (.renamed src t, fs2)) :
    ∃ o fs3, renameFile env fs2 t mode "hash" od false verbose = .ok (o, fs3) ∧
      (o = .skippedExists t ∨ o = .renamed t t) ∧ ∀ p, fs3 p = fs2 p := by
  rcases hod with hod | hod
  · subst hod
    exact ⟨.skippedExists t, fs2,
      hash_skip_rerun_aux env fs src mode verbose c t fs2 hc h,
      Or.inl rfl, fun p => rfl⟩
  · subst hod
    obtain ⟨h2, hpt⟩ := hash_overwrite_rerun_aux env fs src mode verbose c t fs2 hc h
    exact ⟨.renamed t t, fsMove fs2 t t, h2, Or.inr rfl, hpt⟩

/-- Instantiation of `claim2_hash_rerun_idem` on the concrete single-file
directory under `--on-dup overwrite`: run one renames to the hash name, run
two renames the file onto its own name and changes nothing. -/
theorem claim2_witness :
    (("overwrite" : String) = "skip" ∨ ("overwrite" : String) = "overwrite") ∧
      fs0 "a.eml" = some ([] : Content) ∧
      renameFile envC fs0 "a.eml" "received" "hash" "overwrite" false false =
        .ok (.renamed "a.eml" tHash, fs1) ∧
      ∃ o fs3, renameFile envC fs1 tHash "received" "hash" "overwrite" false false =
          .ok (o, fs3) ∧
        (o = .skippedExists tHash ∨ o = .renamed tHash tHash) ∧ ∀ p, fs3 p = fs1 p :=
  ⟨Or.inr rfl, rfl, rfl,
    claim2_hash_rerun_idem envC fs0 "a.eml" "received" "overwrite" false [] tHash fs1
      (Or.inr rfl) rfl rfl⟩

theorem renameFile_allExists_suffix (env : Env) (fs : FS) (src mode uniq : String)
    (dryRun verbose : Bool) (c : Content) (dt : DateTime)
    (hc : fs src = some c)
    (hd : extractDatetime env (env.readMsg c) mode = some dt)
    (hall : ∀ p, (fs p).isSome = true) :
    renameFile env fs src mode uniq "suffix" dryRun verbose = .error () := by
  rw [renameFile_split env fs src mode uniq "suffix" dryRun verbose c dt hc hd]
  rw [if_pos (hall _), if_neg (by decide), if_neg (by decide)]
  have hu : uniquePath (fun p => (fs p).isSome) (targetName env c dt uniq) = .error () := by
    unfold uniquePath
    rw [if_pos (hall _)]
    exact uniquePathGo_allExists _ _ _ (fun p => hall p) 9999 1
  rw [hu]

theorem processAll_abort (env : Env) (mode uniq onDup : String) (dryRun verbose : Bool)
    (n : String) (rest : List String) (fs : FS)
    (h : renameFile env fs n mode uniq onDup dryRun verbose = .error ()) :
    processAll env mode uniq onDup dryRun verbose (n :: rest) fs = ([], fs, true) := by
  rw [processAll_cons]
  simp only [h]

/-- Counterexample to C3: in a directory where every name is occupied, the
first file's suffix-probe exhaustion error escapes `_rename_file` and aborts
the batch: the run reports no outcome for the second file (the outcome list
is empty and the aborted flag is set), so the batch does not continue. -/
theorem claim3_counterexample :
    (processAll envC "received" "none" "suffix" false false ["a.eml", "b.eml"] fsAll).1 = [] ∧
      (processAll envC "received" "none" "suffix" false false
        ["a.eml", "b.eml"] fsAll).2.2 = true := by
  have h1 : renameFile envC fsAll "a.eml" "received" "none" "suffix" false false = .error () :=
    renameFile_allExists_suffix envC fsAll "a.eml" "received" "none" false false []
      ⟨"2024-01-01 093000"⟩ rfl rfl (fun p => rfl)
  have h2 := processAll_abort envC "received" "none" "suffix" false false "a.eml"
    ["b.eml"] fsAll h1
  rw [h2]
  exact ⟨rfl, rfl⟩

/-- C3 (amended): the numeric-suffix probe is bounded — with the base name
and all 9999 probed candidates occupied it gives up and raises — but the
resulting `FileExistsError` is not caught at the per-file boundary: it
escapes `_rename_file` and stops the batch loop, so the remaining files are
not processed. -/
theorem claim3_exhaustion_aborts_batch (env : Env) (fs : FS) (src mode uniq : String)
    (dryRun verbose : Bool) (c : Content) (dt : DateTime) (rest : List String)
    (hc : fs src = some c)
    (hd : extractDatetime env (env.readMsg c) mode = some dt)
    (hall : ∀ p, (fs p).isSome = true) :
    renameFile env fs src mode uniq "suffix" dryRun verbose = .error () ∧
      processAll env mode uniq "suffix" dryRun verbose (src :: rest) fs = ([], fs, true) := by
  have h1 := renameFile_allExists_suffix env fs src mode uniq dryRun verbose c dt hc hd hall
  exact ⟨h1, processAll_abort env mode uniq "suffix" dryRun verbose src rest fs h1⟩

/-- Instantiation of `claim3_exhaustion_aborts_batch` on the fully occupied
concrete directory. -/
theorem claim3_witness :
    fsAll "a.eml" = some ([] : Content) ∧
      extractDatetime envC (envC.readMsg []) "received" = some ⟨"2024-01-01 093000"⟩ ∧
      (∀ p, (fsAll p).isSome = true) ∧
      (renameFile envC fsAll "a.eml" "received" "none" "suffix" false false = .error () ∧
        processAll envC "received" "none" "suffix" false false ("a.eml" :: ["b.eml"]) fsAll =
          ([], fsAll, true)) :=
  ⟨rfl, rfl, fun p => rfl,
    claim3_exhaustion_aborts_batch envC fsAll "a.eml" "received" "none" false false []
      ⟨"2024-01-01 093000"⟩ ["b.eml"] rfl rfl (fun p => rfl)⟩

/-- Counterexample to C4: with `--uniq hash` and no conflicting entry at
either candidate name, the resolved final name still carries the
`"_" + hash` suffix: the file is not renamed to the plain
`timestamp subject.eml` candidate even though that name is free. -/
theorem claim4_counterexample :
    fs0 tPlain = none ∧
      outcomeOf (renameFile envC fs0 "a.eml" "received" "hash" "suffix" false false) =
        some (.renamed "a.eml" tHash) ∧
      tHash ≠ tPlain :=
  ⟨by decide, by decide, by decide⟩

/-- C4 (amended): under `--uniq hash` the `"_" + first-8-hex-of-SHA-256`
token is appended to the base name unconditionally, before any conflict
check; when the hash-suffixed candidate is free the file is renamed onto
exactly that candidate, unchanged. -/
theorem claim4_hash_unconditional (env : Env) (fs : FS) (src mode onDup : String)
    (verbose : Bool) (c : Content) (dt : DateTime)
    (hc : fs src = some c)
    (hd : extractDatetime env (env.readMsg c) mode = some dt)
    (hfree : fs (targetName env c dt "hash") = none) :
    renameFile env fs src mode "hash" onDup false verbose =
        .ok (.renamed src (targetName env c dt "hash"),
          fsMove fs src (targetName env c dt "hash")) ∧
      targetName env c dt "hash" =
        (dt.fmt ++ " " ++ safeSubject (getSubject env (env.readMsg c)) ++
          ("_" ++ strTake (env.sha256hex c) 8)) ++ ".eml" := by
  constructor
  · rw [renameFile_split env fs src mode "hash" onDup false verbose c dt hc hd]
    rw [if_neg (by simp [hfree]), applyRename_go]
  · unfold targetName shortHash
    rw [if_pos (by decide)]

/-- Instantiation of `claim4_hash_unconditional` on the concrete single-file
directory. -/
theorem claim4_witness :
    fs0 "a.eml" = some ([] : Content) ∧
      extractDatetime envC (envC.readMsg []) "received" =
        some ⟨"2024-01-01 093000"⟩ ∧
      fs0 (targetName envC [] ⟨"2024-01-01 093000"⟩ "hash") = none ∧
      (renameFile envC fs0 "a.eml" "received" "hash" "suffix" false false =
          .ok (.renamed "a.eml" (targetName envC [] ⟨"2024-01-01 093000"⟩ "hash"),
            fsMove fs0 "a.eml" (targetName envC [] ⟨"2024-01-01 093000"⟩ "hash")) ∧
        targetName envC [] ⟨"2024-01-01 093000"⟩ "hash" =
          ((⟨"2024-01-01 093000"⟩ : DateTime).fmt ++ " " ++
            safeSubject (getSubject envC (envC.readMsg [])) ++
            ("_" ++ strTake (envC.sha256hex []) 8)) ++ ".eml") :=
  ⟨rfl, rfl, by decide,
    claim4_hash_unconditional envC fs0 "a.eml" "received" "suffix" false []
      ⟨"2024-01-01 093000"⟩ rfl rfl (by decide)⟩
